import Mathlib

/-!
Verification of the k-nearest-neighbor evaluation protocol and dataset
splitting of the sttr repository (`src/utils/knn.py`, `src/datasets/brain.py`).

Modelling conventions (shallow embedding):

* Real-valued tensors are modelled over an arbitrary `LinearOrderedField α`
  (instantiated at `ℚ` for executable witnesses and at `ℝ` where square roots
  are needed).  Floating point rounding is not modelled; arithmetic is exact.
* A `(D, M)` matrix such as the memory bank is represented by the list of its
  `M` columns (each a length-`D` list), i.e. by the list of memory entries.
  A batch of `B` query embeddings is the list of its `B` rows.
* `torch.Tensor.sort(descending=True)` / `argsort` are modelled as the
  deterministic stable descending sort: entries are ordered by strictly
  decreasing value, and equal values keep their original index order.  This is
  the deterministic semantics the evaluation relies on (PyTorch CPU inference).
* `torch.exp` composed with the temperature division is modelled by an
  abstract function parameter `qexp : α → α` (the exponential is
  transcendental, hence not a field operation); theorems that need properties
  of the exponential take monotonicity and positivity as hypotheses, which
  `Real.exp` satisfies.
* Fallible tensor operations are modelled with `Option`: `predict` returns
  `none` exactly when the corresponding PyTorch call raises (out-of-range
  scatter index, or a shape-incompatible broadcast).
-/

namespace Sttr

variable {α : Type} [LinearOrderedField α] {ι : Type}

/-- Dot product of two vectors, `torch.einsum('bf,fm->bm')` restricted to one
row and one column. Like the einsum, it pairs coordinates positionally. -/
def dot (v w : List α) : α := ((v.zip w).map fun p => p.1 * p.2).sum

/-- Ordering relation of the stable descending sort of the values of `l`,
expressed on indices: index `i` comes before `j` when `l[i] > l[j]`, or when
the values tie and `i ≤ j` (stability). -/
def rankRel (l : List α) (i j : ℕ) : Prop :=
  l.getD j 0 < l.getD i 0 ∨ (l.getD i 0 = l.getD j 0 ∧ i ≤ j)

instance (l : List α) : DecidableRel (rankRel l) := fun i j => by
  unfold rankRel; infer_instance

/-- Model of `tensor.argsort(descending=True)` for a one-dimensional tensor:
the permutation of `[0, …, n-1]` listing indices by decreasing value, ties kept
in index order (stable, deterministic). -/
def argsortDesc (l : List α) : List ℕ :=
  List.insertionSort (rankRel l) (List.range l.length)

/-- `KNNEvaluator.__init__` (src/utils/knn.py, lines 16-29): stores the list
of neighbor counts, the number of classes and the temperature (source default
`0.1`). An `int` argument for `num_neighbors` is wrapped into a one-element
list by the constructor, so the stored field is always a list. -/
structure KNNEvaluator (α : Type) where
  num_neighbors : List ℕ
  num_classes : ℕ
  temperature : α

namespace KNNEvaluator

/-- `KNNEvaluator.predict` (src/utils/knn.py, lines 89-117).

* `sim_matrix`: cosine similarities `query ⬝ memory_bank`, one row per query.
* `sim_indices` / `sim_weight`: descending sort of each row, sliced to the
  first `k` columns (PyTorch slicing clamps, giving `min k M` columns).  The
  sorted value at sorted position `j` equals the row entry at the `j`-th
  sorted index, so `sim_weight` is written by indexing the row at
  `argsortDesc` positions; the temperature division and exponential
  `(sim_weight / T).exp()` are fused into the abstract `qexp (· / T)`.
* `sim_labels`: `torch.gather` of the memory labels at the sorted indices.
* the scatter into `one_hot` (a `(B*k, C)` zero matrix, modelled as a function
  from flat row and class to `α`) requires every gathered label to be `< C`,
  otherwise PyTorch raises: modelled by the first conjunct of the guard.
* the product `one_hot.view(B, k, C) * sim_weight.unsqueeze(-1)` broadcasts
  shapes `(B, k, C)` and `(B, min k M, 1)`; it raises unless `min k M = k` or
  `min k M = 1`: modelled by the second conjunct of the guard.
* the result is the descending `argsort` of the per-class vote rows; its first
  column is the predicted class. -/
def predict (ev : KNNEvaluator α) (qexp : α → α) (k : ℕ)
    (query memory_bank : List (List α)) (memory_labels : List ℕ) :
    Option (List (List ℕ)) :=
  let C := ev.num_classes
  let T := ev.temperature
  let B := query.length
  let M := memory_bank.length
  let sim_matrix : List (List α) := query.map fun q => memory_bank.map fun m => dot q m
  let sim_weight : List (List α) :=
    sim_matrix.map fun row => ((argsortDesc row).take k).map fun i => qexp (row.getD i 0 / T)
  let sim_labels : List (List ℕ) :=
    sim_matrix.map fun row => ((argsortDesc row).take k).map fun i => memory_labels.getD i 0
  let kEff := min k M
  let labelsFlat := sim_labels.flatten
  if (labelsFlat.all fun c => decide (c < C)) ∧ (kEff = k ∨ kEff = 1) then
    let one_hot : ℕ → ℕ → α := fun r c =>
      if r < B * kEff ∧ labelsFlat.getD r 0 = c then 1 else 0
    let pred : List (List α) :=
      (List.range B).map fun b =>
        (List.range C).map fun c =>
          ((List.range k).map fun j =>
            one_hot (b * k + j) c *
              ((sim_weight.getD b []).getD (if kEff = k then j else 0) 0)).sum
    some (pred.map argsortDesc)
  else none

end KNNEvaluator

/-! ### Generic list lemmas used by the verification -/

theorem map_getD_range {β γ : Type} (l : List β) (g : β → γ) (d : β) :
    (List.range l.length).map (fun i => g (l.getD i d)) = l.map g := by
  induction l with
  | nil => simp
  | cons a t ih =>
    rw [List.length_cons, List.range_succ_eq_map, List.map_cons, List.map_map, List.map_cons,
      List.getD_cons_zero]
    refine congrArg _ ?_
    rw [← ih]
    refine List.map_congr_left fun i _ => ?_
    simp only [Function.comp_apply, Nat.succ_eq_add_one, List.getD_cons_succ]

theorem flatten_getD_uniform {β : Type} (k : ℕ) (d : β) :
    ∀ (rows : List (List β)) (b j : ℕ), (∀ r ∈ rows, r.length = k) →
      b < rows.length → j < k →
      rows.flatten.getD (b * k + j) d = (rows.getD b []).getD j d := by
  intro rows
  induction rows with
  | nil => intro b j _ hb _; simp at hb
  | cons r rest ih =>
    intro b j hlen hb hj
    have hr : r.length = k := hlen r (List.mem_cons_self r rest)
    cases b with
    | zero =>
      rw [Nat.zero_mul, Nat.zero_add, List.flatten_cons, List.getD_cons_zero,
        List.getD_eq_getElem?_getD, List.getElem?_append_left (by rw [hr]; exact hj),
        ← List.getD_eq_getElem?_getD]
    | succ b2 =>
      have harith : (b2 + 1) * k + j = r.length + (b2 * k + j) := by
        rw [hr, Nat.succ_mul]; omega
      rw [List.flatten_cons, harith, List.getD_eq_getElem?_getD,
        List.getElem?_append_right (by omega), ← List.getD_eq_getElem?_getD]
      have : r.length + (b2 * k + j) - r.length = b2 * k + j := by omega
      rw [this, List.getD_cons_succ]
      exact ih b2 j (fun r2 h2 => hlen r2 (List.mem_cons_of_mem _ h2))
        (Nat.lt_of_succ_lt_succ hb) hj

theorem sum_map_filter {γ : Type} (l : List γ) (p : γ → Bool) (f : γ → α) :
    ((l.filter p).map f).sum = (l.map fun i => if p i then f i else 0).sum := by
  induction l with
  | nil => simp
  | cons a t ih =>
    by_cases hp : p a
    · simp [List.filter_cons, hp, ih]
    · simp [List.filter_cons, hp, ih]

theorem headI_filter_range (n : ℕ) (p : ℕ → Bool) (i : ℕ) (hi : i < n) (hpi : p i = true)
    (hlt : ∀ j, j < i → p j = false) : ((List.range n).filter p).headI = i := by
  obtain ⟨m, rfl⟩ : ∃ m, n = (i + 1) + m := ⟨n - (i + 1), by omega⟩
  rw [List.range_add, List.filter_append, List.range_succ, List.filter_append]
  have h1 : (List.range i).filter p = [] :=
    List.filter_eq_nil_iff.mpr fun a ha => by
      simp [hlt a (List.mem_range.mp ha)]
  rw [h1]
  simp [hpi]

/-! ### Properties of the stable descending argsort -/

instance (l : List α) : IsTrans ℕ (rankRel l) := by
  constructor
  intro a b c hab hbc
  rcases hab with h1 | ⟨h1, h1b⟩ <;> rcases hbc with h2 | ⟨h2, h2b⟩
  · exact Or.inl (h2.trans h1)
  · exact Or.inl (by rw [← h2]; exact h1)
  · exact Or.inl (by rw [h1]; exact h2)
  · exact Or.inr ⟨h1.trans h2, le_trans h1b h2b⟩

instance (l : List α) : IsTotal ℕ (rankRel l) := by
  constructor
  intro a b
  rcases lt_trichotomy (l.getD a 0) (l.getD b 0) with h | h | h
  · exact Or.inr (Or.inl h)
  · rcases le_total a b with hab | hab
    · exact Or.inl (Or.inr ⟨h, hab⟩)
    · exact Or.inr (Or.inr ⟨h.symm, hab⟩)
  · exact Or.inl (Or.inl h)

theorem argsortDesc_perm (l : List α) : List.Perm (argsortDesc l) (List.range l.length) :=
  List.perm_insertionSort _ _

theorem argsortDesc_length (l : List α) : (argsortDesc l).length = l.length := by
  rw [argsortDesc, List.length_insertionSort, List.length_range]

theorem argsortDesc_sorted (l : List α) : (argsortDesc l).Sorted (rankRel l) :=
  List.sorted_insertionSort _ _

theorem mem_argsortDesc {l : List α} {i : ℕ} : i ∈ argsortDesc l ↔ i < l.length := by
  rw [(argsortDesc_perm l).mem_iff, List.mem_range]

/-- The first entry of the descending argsort is a valid index that is ranked
at least as high as every index of the list. -/
theorem argsortDesc_head (l : List α) (hl : 0 < l.length) :
    (argsortDesc l).getD 0 0 < l.length ∧
      ∀ j, j < l.length → rankRel l ((argsortDesc l).getD 0 0) j := by
  have hlen := argsortDesc_length l
  cases h : argsortDesc l with
  | nil => rw [h] at hlen; simp at hlen; omega
  | cons i t =>
    have hi : i ∈ argsortDesc l := by rw [h]; exact List.mem_cons_self _ _
    have hsort := argsortDesc_sorted l
    rw [h] at hsort
    simp only [List.getD_cons_zero]
    refine ⟨mem_argsortDesc.mp hi, fun j hj => ?_⟩
    have hjmem : j ∈ i :: t := by rw [← h]; exact mem_argsortDesc.mpr hj
    rcases List.mem_cons.mp hjmem with rfl | hjt
    · exact Or.inr ⟨rfl, le_refl _⟩
    · exact (List.sorted_cons.mp hsort).1 j hjt

/-- Spec-side definition for claim C1 ("predict the argmax class"): the least
index of `l` whose value is maximal.  Written from the spec's words, to be
compared with the index the code's `argsort` ranking puts first. -/
def specArgmax (l : List α) : ℕ :=
  ((List.range l.length).filter fun c =>
    decide (∀ j ∈ List.range l.length, l.getD j 0 ≤ l.getD c 0)).headI

theorem getD_map_of_lt {β γ : Type} (f : β → γ) (l : List β) {b : ℕ} (hb : b < l.length)
    (d1 : β) (d2 : γ) : (l.map f).getD b d2 = f (l.getD b d1) := by
  rw [List.getD_eq_getElem?_getD, List.getD_eq_getElem?_getD, List.getElem?_map,
    List.getElem?_eq_getElem hb]
  rfl

theorem getD_lt_of_forall_lt (C : ℕ) (hC : 0 < C) (ml : List ℕ)
    (hml : ∀ c ∈ ml, c < C) (j : ℕ) : ml.getD j 0 < C := by
  by_cases h : j < ml.length
  · rw [List.getD_eq_getElem?_getD, List.getElem?_eq_getElem h, Option.getD_some]
    exact hml _ (List.getElem_mem h)
  · rw [List.getD_eq_getElem?_getD, List.getElem?_eq_none (le_of_not_lt h), Option.getD_none]
    exact hC

/-- The first entry of the stable descending argsort is exactly the least
index attaining the maximum value. -/
theorem argsortDesc_getD_zero_eq_specArgmax (l : List α) (hl : 0 < l.length) :
    (argsortDesc l).getD 0 0 = specArgmax l := by
  obtain ⟨hi, hrel⟩ := argsortDesc_head l hl
  refine (headI_filter_range l.length _ ((argsortDesc l).getD 0 0) hi ?_ ?_).symm
  · rw [decide_eq_true_eq]
    intro j hj
    rcases hrel j (List.mem_range.mp hj) with h | ⟨h, _⟩
    · exact le_of_lt h
    · exact h.ge
  · intro j hj
    rw [decide_eq_false_iff_not]
    intro hall
    rcases hrel j (lt_trans hj hi) with h | ⟨h, hle⟩
    · exact absurd (hall _ (List.mem_range.mpr hi)) (not_le.mpr h)
    · omega

namespace KNNEvaluator

/-- Spec-side definition for claim C1, written from the spec's words: for each
class `c`, the accumulated weighted vote of the `k` memory entries with the
highest cosine similarity to `q`, each vote weighted by `exp(similarity / T)`
(the abstract `qexp` fuses the division by the temperature with the
exponential), summed only over entries whose label is `c`. -/
def specClassVotes (ev : KNNEvaluator α) (qexp : α → α) (k : ℕ) (q : List α)
    (memory_bank : List (List α)) (memory_labels : List ℕ) : List α :=
  (List.range ev.num_classes).map fun c =>
    ((((argsortDesc (memory_bank.map fun m => dot q m)).take k).filter fun i =>
        decide (memory_labels.getD i 0 = c)).map fun i =>
      qexp ((memory_bank.map fun m => dot q m).getD i 0 / ev.temperature)).sum

/-- Normal form of `KNNEvaluator.predict` when `k` does not exceed the memory
size and the labels are valid class indices: the call succeeds, and each
returned row is the descending ranking of the per-class weighted votes of the
corresponding query row. -/
theorem predict_eq_specVotes (ev : KNNEvaluator α) (qexp : α → α) (k : ℕ)
    (query memory_bank : List (List α)) (memory_labels : List ℕ)
    (hk : k ≤ memory_bank.length) (hC : 0 < ev.num_classes)
    (hml : ∀ c ∈ memory_labels, c < ev.num_classes) :
    ev.predict qexp k query memory_bank memory_labels
      = some (query.map fun q =>
          argsortDesc (specClassVotes ev qexp k q memory_bank memory_labels)) := by
  have hM : min k memory_bank.length = k := Nat.min_eq_left hk
  simp only [KNNEvaluator.predict, hM, eq_self_iff_true, if_true, true_or, and_true]
  split_ifs with hcond
  · refine congrArg some ?_
    rw [List.map_map,
      ← map_getD_range query
        (fun q => argsortDesc (specClassVotes ev qexp k q memory_bank memory_labels)) []]
    refine List.map_congr_left fun b hb => ?_
    rw [List.mem_range] at hb
    simp only [Function.comp_apply]
    refine congrArg argsortDesc ?_
    have hsimsrow :
        (query.map fun q => memory_bank.map fun m => dot q m).getD b []
          = memory_bank.map fun m => dot (query.getD b []) m :=
      getD_map_of_lt _ _ hb [] []
    have htklen :
        ((argsortDesc (memory_bank.map fun m => dot (query.getD b []) m)).take k).length
          = k := by
      rw [List.length_take, argsortDesc_length, List.length_map]
      exact hM
    simp only [specClassVotes]
    refine List.map_congr_left fun c _ => ?_
    have hwrow :
        ((query.map fun q => memory_bank.map fun m => dot q m).map fun row =>
            ((argsortDesc row).take k).map fun i =>
              qexp (row.getD i 0 / ev.temperature)).getD b []
          = ((argsortDesc (memory_bank.map fun m => dot (query.getD b []) m)).take k).map
              fun i =>
                qexp ((memory_bank.map fun m => dot (query.getD b []) m).getD i 0
                  / ev.temperature) := by
      rw [getD_map_of_lt _ _ (by rw [List.length_map]; exact hb) [] [], hsimsrow]
    have hlrow :
        ((query.map fun q => memory_bank.map fun m => dot q m).map fun row =>
            ((argsortDesc row).take k).map fun i => memory_labels.getD i 0).getD b []
          = ((argsortDesc (memory_bank.map fun m => dot (query.getD b []) m)).take k).map
              fun i => memory_labels.getD i 0 := by
      rw [getD_map_of_lt _ _ (by rw [List.length_map]; exact hb) [] [], hsimsrow]
    have hlabflat : ∀ j, j < k →
        (((query.map fun q => memory_bank.map fun m => dot q m).map fun row =>
            ((argsortDesc row).take k).map fun i => memory_labels.getD i 0).flatten).getD
              (b * k + j) 0
          = memory_labels.getD
              (((argsortDesc (memory_bank.map fun m => dot (query.getD b []) m)).take
                  k).getD j 0) 0 := by
      intro j hj
      rw [flatten_getD_uniform k 0 _ b j ?rows (by simp only [List.length_map]; exact hb) hj]
      case rows =>
        intro r hr
        rw [List.mem_map] at hr
        obtain ⟨row, hrowmem, rfl⟩ := hr
        rw [List.mem_map] at hrowmem
        obtain ⟨q0, _, rfl⟩ := hrowmem
        rw [List.length_map, List.length_take, argsortDesc_length, List.length_map]
        exact hM
      rw [hlrow, getD_map_of_lt _ _ (by rw [htklen]; exact hj) 0 0]
    have hbk : ∀ j, j < k → b * k + j < query.length * k := by
      intro j hj
      calc b * k + j < b * k + k := by omega
        _ = (b + 1) * k := (Nat.succ_mul b k).symm
        _ ≤ query.length * k := Nat.mul_le_mul_right k hb
    have hstep :
        (List.range k).map (fun j =>
            (if b * k + j < query.length * k ∧
                (((query.map fun q => memory_bank.map fun m => dot q m).map fun row =>
                    ((argsortDesc row).take k).map fun i =>
                      memory_labels.getD i 0).flatten).getD (b * k + j) 0 = c
              then (1 : α) else 0) *
            (((query.map fun q => memory_bank.map fun m => dot q m).map fun row =>
                ((argsortDesc row).take k).map fun i =>
                  qexp (row.getD i 0 / ev.temperature)).getD b []).getD j 0)
          = (List.range k).map fun j =>
              (fun i =>
                (if memory_labels.getD i 0 = c then (1 : α) else 0) *
                  qexp ((memory_bank.map fun m => dot (query.getD b []) m).getD i 0
                    / ev.temperature))
              (((argsortDesc (memory_bank.map fun m => dot (query.getD b []) m)).take
                  k).getD j 0) := by
      refine List.map_congr_left fun j hj => ?_
      rw [List.mem_range] at hj
      rw [hlabflat j hj, hwrow, getD_map_of_lt _ _ (by rw [htklen]; exact hj) 0 0,
        if_congr (and_iff_right (hbk j hj)) rfl rfl]
    have hrange : List.range k
        = List.range ((List.take k (argsortDesc
            (List.map (fun m => dot (query.getD b []) m) memory_bank))).length) := by
      rw [htklen]
    rw [hstep, hrange,
      map_getD_range
        (List.take k (argsortDesc (List.map (fun m => dot (query.getD b []) m) memory_bank)))
        (fun i =>
          (if memory_labels.getD i 0 = c then (1 : α) else 0) *
            qexp ((List.map (fun m => dot (query.getD b []) m) memory_bank).getD i 0
              / ev.temperature)) 0,
      sum_map_filter]
    refine congrArg List.sum (List.map_congr_left fun i _ => ?_)
    rw [boole_mul]
    simp only [decide_eq_true_eq]
  · exfalso
    apply hcond
    refine List.all_eq_true.mpr fun x hx => ?_
    rw [List.mem_flatten] at hx
    obtain ⟨r, hr, hxr⟩ := hx
    rw [List.mem_map] at hr
    obtain ⟨row, _, rfl⟩ := hr
    rw [List.mem_map] at hxr
    obtain ⟨i, _, rfl⟩ := hxr
    rw [decide_eq_true_eq]
    exact getD_lt_of_forall_lt _ hC _ hml i

/-- Length of the spec-side vote list: one entry per class. -/
theorem specClassVotes_length (ev : KNNEvaluator α) (qexp : α → α) (k : ℕ) (q : List α)
    (memory_bank : List (List α)) (memory_labels : List ℕ) :
    (specClassVotes ev qexp k q memory_bank memory_labels).length = ev.num_classes := by
  rw [specClassVotes, List.length_map, List.length_range]

/-- C1: for every query batch, memory bank, label vector and `1 ≤ k ≤ M`
(with valid class labels), the first column of the ranking returned by
`KNNEvaluator.predict` — the predicted class of each query row — equals the
argmax over classes of the per-class weighted vote
`Σ exp(similarity / T)` accumulated over the `k` most similar memory entries
carrying that class label (ties resolved towards the lowest class index by
the stable ranking). -/
theorem predict_first_col_eq_specArgmax (ev : KNNEvaluator α) (qexp : α → α) (k : ℕ)
    (query memory_bank : List (List α)) (memory_labels : List ℕ) (b : ℕ)
    (hk1 : 1 ≤ k) (hk : k ≤ memory_bank.length) (hC : 0 < ev.num_classes)
    (hml : ∀ c ∈ memory_labels, c < ev.num_classes) (hb : b < query.length) :
    (ev.predict qexp k query memory_bank memory_labels).map
        (fun res => (res.getD b []).getD 0 0)
      = some (specArgmax
          (specClassVotes ev qexp k (query.getD b []) memory_bank memory_labels)) := by
  rw [predict_eq_specVotes ev qexp k query memory_bank memory_labels hk hC hml,
    Option.map_some']
  refine congrArg some ?_
  rw [getD_map_of_lt _ _ hb [] []]
  exact argsortDesc_getD_zero_eq_specArgmax _
    (by rw [specClassVotes_length]; exact hC)

/-- C3: whenever two (or more) classes tie for the maximal accumulated
weighted vote of a query row, the class predicted by `KNNEvaluator.predict`
is itself a maximal-vote class and is less than or equal to every class whose
vote attains the maximum — i.e. the tying class with the lowest index wins. -/
theorem predict_tie_broken_by_lowest_index (ev : KNNEvaluator α) (qexp : α → α) (k : ℕ)
    (query memory_bank : List (List α)) (memory_labels : List ℕ) (b c1 c2 : ℕ)
    (hk : k ≤ memory_bank.length) (hC : 0 < ev.num_classes)
    (hml : ∀ c ∈ memory_labels, c < ev.num_classes) (hb : b < query.length)
    (hc1 : c1 < ev.num_classes) (hc2 : c2 < ev.num_classes) (hne : c1 ≠ c2)
    (hmax : ∀ c, c < ev.num_classes →
      (specClassVotes ev qexp k (query.getD b []) memory_bank memory_labels).getD c 0 ≤
        (specClassVotes ev qexp k (query.getD b []) memory_bank memory_labels).getD c1 0)
    (htie : (specClassVotes ev qexp k (query.getD b []) memory_bank memory_labels).getD c2 0
      = (specClassVotes ev qexp k (query.getD b []) memory_bank memory_labels).getD c1 0) :
    ∃ p, (ev.predict qexp k query memory_bank memory_labels).map
        (fun res => (res.getD b []).getD 0 0) = some p ∧
      (specClassVotes ev qexp k (query.getD b []) memory_bank memory_labels).getD p 0
        = (specClassVotes ev qexp k (query.getD b []) memory_bank memory_labels).getD c1 0 ∧
      ∀ c, c < ev.num_classes →
        (specClassVotes ev qexp k (query.getD b []) memory_bank memory_labels).getD c 0
          = (specClassVotes ev qexp k (query.getD b []) memory_bank
              memory_labels).getD c1 0 → p ≤ c := by
  rw [predict_eq_specVotes ev qexp k query memory_bank memory_labels hk hC hml,
    Option.map_some']
  set votes := specClassVotes ev qexp k (query.getD b []) memory_bank memory_labels with hv
  have hvlen : votes.length = ev.num_classes := specClassVotes_length _ _ _ _ _ _
  have hpos : 0 < votes.length := by rw [hvlen]; exact hC
  obtain ⟨hheadlt, hheadrel⟩ := argsortDesc_head votes hpos
  set p := (argsortDesc votes).getD 0 0 with hp
  refine ⟨p, ?_, ?_, ?_⟩
  · refine congrArg some ?_
    rw [getD_map_of_lt _ _ hb [] []]
  · have h1 : votes.getD c1 0 ≤ votes.getD p 0 := by
      rcases hheadrel c1 (by rw [hvlen]; exact hc1) with h | ⟨h, _⟩
      · exact le_of_lt h
      · exact h.ge
    have h2 : votes.getD p 0 ≤ votes.getD c1 0 := hmax p (by rw [← hvlen]; exact hheadlt)
    exact le_antisymm h2 h1
  · intro c hc hcEq
    rcases hheadrel c (by rw [hvlen]; exact hc) with h | ⟨_, hle⟩
    · exfalso
      have h1 : votes.getD c1 0 ≤ votes.getD p 0 := by
        rcases hheadrel c1 (by rw [hvlen]; exact hc1) with h2 | ⟨h2, _⟩
        · exact le_of_lt h2
        · exact h2.ge
      have h2 : votes.getD p 0 ≤ votes.getD c1 0 := hmax p (by rw [← hvlen]; exact hheadlt)
      rw [hcEq] at h
      exact absurd (le_antisymm h2 h1) (ne_of_gt h)
    · exact hle

/-- C2 counterexample: with a memory bank of `M = 2` entries and `k = 3 > M`,
`KNNEvaluator.predict` fails (the broadcast of the `(B, k, C)` one-hot view
with the `(B, min k M, 1)` weight slice raises a shape error, modelled as
`none`), while the same call with `k = M = 2` succeeds — so `predict` neither
avoids failure nor clamps `k` to `M`. -/
theorem predict_k_gt_M_counterexample :
    KNNEvaluator.predict ⟨[3], 2, (1 : ℚ)⟩ (fun _ => 1) 3 [[1, 0]] [[1, 0], [0, 1]] [0, 1]
        = none ∧
      KNNEvaluator.predict ⟨[3], 2, (1 : ℚ)⟩ (fun _ => 1) 2 [[1, 0]] [[1, 0], [0, 1]] [0, 1]
        ≠ none := by
  constructor
  · norm_num [KNNEvaluator.predict, argsortDesc, rankRel, dot, List.range_succ]
  · norm_num [KNNEvaluator.predict, argsortDesc, rankRel, dot, List.range_succ]
    exact Option.some_ne_none _

/-- C2 amended: for every memory bank with `M ≥ 2` entries and every `k > M`,
`KNNEvaluator.predict` does not clamp: it fails with a broadcast shape error
(the sliced weight width `min k M = M` is neither `k` nor `1`), modelled as
returning `none`. -/
theorem predict_k_gt_M_fails (ev : KNNEvaluator α) (qexp : α → α) (k : ℕ)
    (query memory_bank : List (List α)) (memory_labels : List ℕ)
    (hM2 : 2 ≤ memory_bank.length) (hkM : memory_bank.length < k) :
    ev.predict qexp k query memory_bank memory_labels = none := by
  have h1 : min k memory_bank.length = memory_bank.length :=
    Nat.min_eq_right (le_of_lt hkM)
  simp only [KNNEvaluator.predict, h1]
  split_ifs with hcond
  · exfalso
    rcases hcond.2 with h | h <;> omega
  · rfl

end KNNEvaluator

/-- Sum of squared coordinates; a vector is an (L2) unit vector exactly when
this equals `1`. -/
def sumSq (v : List α) : α := (v.map fun x => x * x).sum

namespace KNNEvaluator

/-- C7: for every memory bank of four two-dimensional unit vectors with known
labels and every unit query vector whose three most similar entries (by
cosine similarity, in the ranking the code computes) are two label-0 entries
followed by one label-1 entry, `KNNEvaluator.predict` with `k = 3` predicts
label 0.  The weight function is assumed monotone and positive, as
`exp(·/T)` is; the temperature is positive as in the source default `0.1`. -/
theorem predict_scenario_two_nearest_label0 (ev : KNNEvaluator α) (qexp : α → α)
    (q m0 m1 m2 m3 : List α) (memory_labels : List ℕ)
    (hC : ev.num_classes = 2) (hT : 0 < ev.temperature)
    (hmono : Monotone qexp) (hqpos : ∀ x, 0 < qexp x)
    (hdim : q.length = 2 ∧ m0.length = 2 ∧ m1.length = 2 ∧ m2.length = 2 ∧ m3.length = 2)
    (hunit : sumSq q = 1 ∧ sumSq m0 = 1 ∧ sumSq m1 = 1 ∧ sumSq m2 = 1 ∧ sumSq m3 = 1)
    (hml : ∀ c ∈ memory_labels, c < 2)
    (hl0 : memory_labels.getD
      ((argsortDesc (List.map (fun m => dot q m) [m0, m1, m2, m3])).getD 0 0) 0 = 0)
    (hl1 : memory_labels.getD
      ((argsortDesc (List.map (fun m => dot q m) [m0, m1, m2, m3])).getD 1 0) 0 = 0)
    (hl2 : memory_labels.getD
      ((argsortDesc (List.map (fun m => dot q m) [m0, m1, m2, m3])).getD 2 0) 0 = 1) :
    (ev.predict qexp 3 [q] [m0, m1, m2, m3] memory_labels).map
        (fun res => (res.getD 0 []).getD 0 0) = some 0 := by
  have hml2 : ∀ c ∈ memory_labels, c < ev.num_classes := by rw [hC]; exact hml
  rw [predict_eq_specVotes ev qexp 3 [q] [m0, m1, m2, m3] memory_labels (by simp)
    (by rw [hC]; norm_num) hml2, Option.map_some']
  refine congrArg some ?_
  simp only [List.map_cons, List.map_nil, List.getD_cons_zero]
  set sims := List.map (fun m => dot q m) [m0, m1, m2, m3] with hsims
  have hlen4 : (argsortDesc sims).length = 4 := by
    rw [argsortDesc_length, hsims]
    rfl
  have hsorted := argsortDesc_sorted sims
  rcases h4 : argsortDesc sims with _ | ⟨i0, _ | ⟨i1, _ | ⟨i2, _ | ⟨i3, rest⟩⟩⟩⟩ <;>
    rw [h4] at hlen4 <;> simp at hlen4
  subst hlen4
  rw [h4] at hsorted
  rw [h4] at hl0 hl1 hl2
  simp only [List.getD_cons_zero, List.getD_cons_succ] at hl0 hl1 hl2
  rw [List.getD_eq_getElem?_getD] at hl0 hl1 hl2
  have hrange2 : List.range 2 = [0, 1] := rfl
  have h12 : rankRel sims i1 i2 := by
    have h1 := (List.sorted_cons.mp hsorted).2
    exact (List.sorted_cons.mp h1).1 i2 (by simp)
  have hs21 : sims.getD i2 0 ≤ sims.getD i1 0 := by
    rcases h12 with h | ⟨h, _⟩
    · exact le_of_lt h
    · exact h.ge
  have hv0 : (specClassVotes ev qexp 3 q [m0, m1, m2, m3] memory_labels).getD 0 0
      = qexp (sims.getD i0 0 / ev.temperature) + qexp (sims.getD i1 0 / ev.temperature) := by
    rw [specClassVotes, hC, hrange2, ← hsims, h4]
    simp [List.filter_cons, hl0, hl1, hl2]
  have hv1 : (specClassVotes ev qexp 3 q [m0, m1, m2, m3] memory_labels).getD 1 0
      = qexp (sims.getD i2 0 / ev.temperature) := by
    rw [specClassVotes, hC, hrange2, ← hsims, h4]
    simp [List.filter_cons, hl0, hl1, hl2]
  have hvlt : (specClassVotes ev qexp 3 q [m0, m1, m2, m3] memory_labels).getD 1 0
      < (specClassVotes ev qexp 3 q [m0, m1, m2, m3] memory_labels).getD 0 0 := by
    rw [hv0, hv1]
    have hw : qexp (sims.getD i2 0 / ev.temperature)
        ≤ qexp (sims.getD i1 0 / ev.temperature) := by
      refine hmono ?_
      gcongr
    have hw0 := hqpos (sims.getD i0 0 / ev.temperature)
    linarith
  have hvlen : (specClassVotes ev qexp 3 q [m0, m1, m2, m3] memory_labels).length = 2 := by
    rw [specClassVotes_length, hC]
  obtain ⟨hhead, hrel⟩ :=
    argsortDesc_head (specClassVotes ev qexp 3 q [m0, m1, m2, m3] memory_labels)
      (by rw [hvlen]; norm_num)
  rw [hvlen] at hhead
  have hp01 : (argsortDesc (specClassVotes ev qexp 3 q [m0, m1, m2, m3]
      memory_labels)).getD 0 0 = 0 ∨ (argsortDesc (specClassVotes ev qexp 3 q
        [m0, m1, m2, m3] memory_labels)).getD 0 0 = 1 := by omega
  rcases hp01 with h | h
  · exact h
  · exfalso
    have hr := hrel 0 (by rw [hvlen]; norm_num)
    rw [h] at hr
    rcases hr with hlt | ⟨heq, hle⟩
    · exact absurd hlt (not_lt.mpr (le_of_lt hvlt))
    · omega

end KNNEvaluator

/-! ### The `evaluate` pipeline -/

/-- A mini-batch yielded by a data loader: the samples `batch['x']` (abstract
sample type `ι`) and their integer labels `batch['y']`. -/
structure Batch (ι : Type) where
  x : List ι
  y : List ℕ

/-- More generic list lemmas used for the `evaluate` pipeline. -/
theorem mapM_option_eq_some {β γ : Type} (f : β → Option γ) (g : β → γ) :
    ∀ (l : List β), (∀ x ∈ l, f x = some (g x)) → l.mapM f = some (l.map g) := by
  intro l
  induction l with
  | nil => intro _; rfl
  | cons a t ih =>
    intro h
    rw [List.mapM_cons, h a (List.mem_cons_self a t),
      ih fun x hx => h x (List.mem_cons_of_mem a hx)]
    rfl

theorem countP_flatMap {β γ : Type} (l : List β) (g : β → List γ) (p : γ → Bool) :
    ((l.flatMap g).countP p) = (l.map fun b => (g b).countP p).sum := by
  induction l with
  | nil => rfl
  | cons a t ih => simp [List.flatMap_cons, List.countP_append, ih]

theorem countP_zip_map {ι : Type} (f : ι → ℕ) :
    ∀ (xs : List ι) (ys : List ℕ), ys.length = xs.length →
      ((ys.zip (xs.map f)).countP fun p => decide (p.1 = p.2))
        = ((xs.zip ys).countP fun p => decide (f p.1 = p.2)) := by
  intro xs
  induction xs with
  | nil =>
    intro ys h
    rw [List.length_nil, List.length_eq_zero] at h
    subst h
    rfl
  | cons a t ih =>
    intro ys h
    cases ys with
    | nil => simp at h
    | cons y ys2 =>
      rw [List.length_cons, List.length_cons] at h
      rw [List.map_cons, List.zip_cons_cons, List.zip_cons_cons, List.countP_cons,
        List.countP_cons, ih ys2 (Nat.succ_injective h)]
      rw [decide_eq_decide.mpr eq_comm]

namespace KNNEvaluator

/-- The embeddings one loader batch contributes in `KNNEvaluator.evaluate`:
`F.normalize(net(batch['x']))` applied row-wise (src/utils/knn.py, lines
61-62 and 74).  `net` abstracts the network's per-sample embedding and
`normalize` abstracts the library function `F.normalize(·, dim=1)` on a row. -/
def batchEmbeddings (net : ι → List α) (normalize : List α → List α) (b : Batch ι) :
    List (List α) :=
  b.x.map fun s => normalize (net s)

/-- Pass 1 of `KNNEvaluator.evaluate` (lines 58-67): the memory bank.
`torch.cat(memory_bank, dim=0).T` turns each normalized embedding into a
column of the `(D, M)` bank; in the column-list representation the bank is
the concatenation of the per-batch embedding lists. -/
def memoryBank (net : ι → List α) (normalize : List α → List α)
    (memory_loader : List (Batch ι)) : List (List α) :=
  memory_loader.flatMap fun b => batchEmbeddings net normalize b

/-- The memory label vector collected in pass 1 (lines 63, 67). -/
def memoryLabels (memory_loader : List (Batch ι)) : List ℕ :=
  memory_loader.flatMap fun b => b.y

/-- Per-batch correct-prediction count (lines 76-81): run `predict`, take the
first column of the ranking (`[:, 0]`), compare with the batch labels and
count the matches (`y.eq(y_pred).sum().item()`).  `none` when `predict`
raises. -/
def batchCorrect (ev : KNNEvaluator α) (qexp : α → α) (net : ι → List α)
    (normalize : List α → List α) (memory_bank : List (List α))
    (memory_labels : List ℕ) (k : ℕ) (b : Batch ι) : Option ℕ :=
  (ev.predict qexp k (batchEmbeddings net normalize b) memory_bank memory_labels).map
    fun res => (b.y.zip (res.map fun row => row.getD 0 0)).countP fun p =>
      decide (p.1 = p.2)

/-- `KNNEvaluator.evaluate` (src/utils/knn.py, lines 31-87): extract the
memory bank and label vector from the memory loader, then for each `k` in
`num_neighbors` accumulate the correct predictions over the query batches and
divide by `len(query_loader.dataset)` — the loader is assumed to partition
its dataset, so the dataset size is the sum of the batch sizes.  The result
models the returned `scores` dictionary as the list of `(k, knn@k)` pairs;
`none` when any `predict` call raises. -/
def evaluate (ev : KNNEvaluator α) (qexp : α → α) (net : ι → List α)
    (normalize : List α → List α) (memory_loader query_loader : List (Batch ι)) :
    Option (List (ℕ × α)) :=
  ev.num_neighbors.mapM fun k =>
    (query_loader.mapM fun b =>
        batchCorrect ev qexp net normalize (memoryBank net normalize memory_loader)
          (memoryLabels memory_loader) k b).map
      fun counts => (k, (counts.sum : α) / ((query_loader.map fun b => b.x.length).sum : α))

/-- The label `predict` assigns to a single embedding: the first column of the
ranking for the one-row query batch. -/
def predictOne (ev : KNNEvaluator α) (qexp : α → α) (k : ℕ)
    (memory_bank : List (List α)) (memory_labels : List ℕ) (z : List α) : Option ℕ :=
  (ev.predict qexp k [z] memory_bank memory_labels).map fun res =>
    (res.getD 0 []).getD 0 0

/-- C4: for every run of `KNNEvaluator.evaluate` (valid labels, every
requested `k` within the memory size, label/sample lists of equal length per
batch), the reported score for each `k` in the neighbor list equals the
number of query samples whose predicted label equals their ground-truth label
divided by the total number of samples in the query set. -/
theorem evaluate_scores_eq_accuracy (ev : KNNEvaluator α) (qexp : α → α)
    (net : ι → List α) (normalize : List α → List α)
    (memory_loader query_loader : List (Batch ι))
    (hC : 0 < ev.num_classes)
    (hml : ∀ c ∈ memoryLabels memory_loader, c < ev.num_classes)
    (hks : ∀ k ∈ ev.num_neighbors, k ≤ (memoryBank net normalize memory_loader).length)
    (hlen : ∀ b ∈ query_loader, b.y.length = b.x.length) :
    evaluate ev qexp net normalize memory_loader query_loader
      = some (ev.num_neighbors.map fun k =>
          (k, (((query_loader.flatMap fun b => b.x.zip b.y).countP fun p =>
              decide (predictOne ev qexp k (memoryBank net normalize memory_loader)
                (memoryLabels memory_loader) (normalize (net p.1)) = some p.2) : ℕ) : α)
            / ((query_loader.map fun b => b.x.length).sum : α))) := by
  simp only [evaluate]
  refine mapM_option_eq_some _ _ ev.num_neighbors fun k hk => ?_
  have hkM := hks k hk
  have hbatch : ∀ b ∈ query_loader,
      batchCorrect ev qexp net normalize (memoryBank net normalize memory_loader)
          (memoryLabels memory_loader) k b
        = some ((b.x.zip b.y).countP fun p =>
            decide (predictOne ev qexp k (memoryBank net normalize memory_loader)
              (memoryLabels memory_loader) (normalize (net p.1)) = some p.2)) := by
    intro b hb
    rw [batchCorrect, predict_eq_specVotes _ _ _ _ _ _ hkM hC hml, Option.map_some']
    refine congrArg some ?_
    rw [batchEmbeddings, List.map_map, List.map_map]
    rw [countP_zip_map _ b.x b.y (hlen b hb)]
    refine List.countP_congr fun p _ => ?_
    rw [predictOne, predict_eq_specVotes _ _ _ _ _ _ hkM hC hml, Option.map_some']
    simp only [List.map_cons, List.map_nil, List.getD_cons_zero, Function.comp_apply]
    rw [decide_eq_true_eq, decide_eq_true_eq]
    exact Option.some_inj.symm
  rw [mapM_option_eq_some _ _ query_loader hbatch, Option.map_some']
  refine congrArg some ?_
  refine congrArg (Prod.mk k) ?_
  rw [countP_flatMap]

/-- C6: `evaluate` is deterministic — for fixed extracted embeddings (network
and normalization), memory labels and neighbor counts, two runs of the
evaluation return identical score dictionaries (the model has no source of
randomness at inference). -/
theorem evaluate_deterministic (ev : KNNEvaluator α) (qexp : α → α) (net : ι → List α)
    (normalize : List α → List α) (memory_loader query_loader : List (Batch ι))
    (s1 s2 : Option (List (ℕ × α)))
    (h1 : evaluate ev qexp net normalize memory_loader query_loader = s1)
    (h2 : evaluate ev qexp net normalize memory_loader query_loader = s2) :
    s1 = s2 :=
  h1.symm.trans h2

end KNNEvaluator

/-! ### Network state model for the frame property (C8) -/

/-- Model of the `nn.Module` state touched by `KNNEvaluator.evaluate`: the
parameter vector, the gradient store of the parameters, the `training` flag
toggled by `net.eval()`, and the forward function — a pure function of the
parameters, the mode flag and the input, since a forward pass reads but never
writes the module. -/
structure Net (ι α : Type) where
  params : List α
  grads : List α
  training : Bool
  forwardFn : List α → Bool → ι → List α

/-- `net.eval()`: switches the module to evaluation mode; the only field it
touches is `training`. -/
def Net.eval (n : Net ι α) : Net ι α :=
  Net.mk n.params n.grads false n.forwardFn

/-- `KNNEvaluator.evaluate` with the module state made explicit
(src/utils/knn.py, lines 31-49): the body runs under `@torch.no_grad()`, so
no forward output is recorded on the autograd tape and no gradient is
accumulated; the network is touched only by `net.eval()` and by forward
passes.  Returns the scores together with the module state after the call. -/
def KNNEvaluator.evaluateNet (ev : KNNEvaluator α) (qexp : α → α)
    (normalize : List α → List α) (net : Net ι α)
    (memory_loader query_loader : List (Batch ι)) :
    Option (List (ℕ × α)) × Net ι α :=
  (KNNEvaluator.evaluate ev qexp (net.eval.forwardFn net.eval.params net.eval.training)
    normalize memory_loader query_loader, net.eval)

/-- C8: `evaluate` never mutates the network parameters and records no
gradient: the parameter vector and the gradient store after the call equal
those before it (the only module state it changes is the `training` flag set
by `net.eval()`). -/
theorem evaluateNet_preserves_params (ev : KNNEvaluator α) (qexp : α → α)
    (normalize : List α → List α) (net : Net ι α)
    (memory_loader query_loader : List (Batch ι)) :
    (ev.evaluateNet qexp normalize net memory_loader query_loader).2.params = net.params ∧
      (ev.evaluateNet qexp normalize net memory_loader query_loader).2.grads = net.grads :=
  ⟨rfl, rfl⟩

/-! ### L2 normalization over the reals (C5)

`F.normalize` divides by a Euclidean norm, which needs a square root, so this
part of the model is instantiated at `ℝ`. -/

/-- Euclidean (L2) norm of a row vector. -/
noncomputable def l2norm (v : List ℝ) : ℝ :=
  Real.sqrt ((v.map fun x => x * x).sum)

/-- `torch.nn.functional.normalize(v, p=2, dim=1, eps)` on one row: divide
each coordinate by `max(‖v‖₂, eps)`. -/
noncomputable def Fnormalize (eps : ℝ) (v : List ℝ) : List ℝ :=
  v.map fun x => x / max (l2norm v) eps

/-- The default `eps = 1e-12` of `torch.nn.functional.normalize`. -/
noncomputable def normalizeEps : ℝ := 1 / 10 ^ 12

theorem sum_sq_nonneg (v : List ℝ) : 0 ≤ (v.map fun x => x * x).sum :=
  List.sum_nonneg fun x hx => by
    obtain ⟨y, _, rfl⟩ := List.mem_map.mp hx
    exact mul_self_nonneg y

theorem sum_map_div {γ : Type} (l : List γ) (f : γ → ℝ) (c : ℝ) :
    (l.map fun x => f x / c).sum = (l.map f).sum / c := by
  induction l with
  | nil => simp
  | cons a t ih => simp [ih, add_div]

/-- A row whose norm is at least `eps > 0` has exactly unit norm after
`F.normalize`. -/
theorem l2norm_Fnormalize (eps : ℝ) (heps : 0 < eps) (v : List ℝ)
    (hv : eps ≤ l2norm v) : l2norm (Fnormalize eps v) = 1 := by
  have hn : 0 < l2norm v := lt_of_lt_of_le heps hv
  rw [Fnormalize, max_eq_left hv, l2norm, List.map_map]
  have hmap : ((fun x => x * x) ∘ fun x => x / l2norm v)
      = fun x => (x * x) / (l2norm v * l2norm v) := by
    funext x
    rw [Function.comp_apply, div_mul_div_comm]
  rw [hmap, sum_map_div, Real.sqrt_div (sum_sq_nonneg v),
    Real.sqrt_mul_self (le_of_lt hn)]
  rw [l2norm] at hn ⊢
  exact div_self (ne_of_gt hn)

theorem normalizeEps_pos : 0 < normalizeEps := by
  rw [normalizeEps]
  norm_num

/-- C5 amended: in `KNNEvaluator.evaluate`, every embedding entering a
similarity computation has been passed through `F.normalize`; provided every
extracted embedding has norm at least the normalization `eps = 1e-12`, each
column of the memory bank and each query embedding has exactly unit L2 norm.
(Embeddings with norm below `eps` — e.g. a zero embedding — are divided by
`eps` instead and keep norm below one; see the counterexample.) -/
theorem evaluate_embeddings_unit_norm (net : ι → List ℝ)
    (memory_loader query_loader : List (Batch ι))
    (hmem : ∀ b ∈ memory_loader, ∀ s ∈ b.x, normalizeEps ≤ l2norm (net s))
    (hquery : ∀ b ∈ query_loader, ∀ s ∈ b.x, normalizeEps ≤ l2norm (net s)) :
    (∀ col ∈ KNNEvaluator.memoryBank net (Fnormalize normalizeEps) memory_loader,
        l2norm col = 1) ∧
      ∀ b ∈ query_loader,
        ∀ z ∈ KNNEvaluator.batchEmbeddings net (Fnormalize normalizeEps) b,
          l2norm z = 1 := by
  constructor
  · intro col hcol
    rw [KNNEvaluator.memoryBank, List.mem_flatMap] at hcol
    obtain ⟨b, hb, hcol⟩ := hcol
    rw [KNNEvaluator.batchEmbeddings, List.mem_map] at hcol
    obtain ⟨s, hs, rfl⟩ := hcol
    exact l2norm_Fnormalize _ normalizeEps_pos _ (hmem b hb s hs)
  · intro b hb z hz
    rw [KNNEvaluator.batchEmbeddings, List.mem_map] at hz
    obtain ⟨s, hs, rfl⟩ := hz
    exact l2norm_Fnormalize _ normalizeEps_pos _ (hquery b hb s hs)

/-- C5 counterexample: a network that outputs the zero embedding produces a
memory-bank column that is the zero vector — `F.normalize` divides it by
`eps`, leaving it zero — so that column's L2 norm is `0`, not `1`: the
claim that every column of the memory bank has unit norm fails. -/
theorem memoryBank_zero_embedding_counterexample :
    (KNNEvaluator.memoryBank (fun _ : Unit => [(0 : ℝ), 0]) (Fnormalize normalizeEps)
        [⟨[()], [0]⟩]).getD 0 [] = [0, 0] ∧ l2norm [(0 : ℝ), 0] ≠ 1 := by
  constructor
  · have h1 : Fnormalize normalizeEps [(0 : ℝ), 0] = [0, 0] := by
      rw [Fnormalize]
      simp
    simp [KNNEvaluator.memoryBank, KNNEvaluator.batchEmbeddings, h1]
  · rw [l2norm]
    simp [Real.sqrt_zero]

/-! ### Dataset model (src/datasets/brain.py) -/

/-- The `data_type` argument of the brain datasets; `assert data_type in
['mri', 'pet']` makes these the only possible values. -/
inductive DataType : Type
  | mri : DataType
  | pet : DataType

/-- `BrainMoCo` (src/datasets/brain.py, lines 146-160) together with the
`BrainBase` state it inherits (lines 99-127): the MRI and PET path lists and
the label list from the dataset dict, the data type, and the two MoCo view
transforms.  `P` is the type of file paths, `Img` the type of loaded
volumes; labels are integers (`0`/`1` converter labels or the `-1` unlabeled
sentinel). -/
structure BrainMoCo (P Img : Type) where
  mri : List P
  pet : List P
  y : List ℤ
  data_type : DataType
  query_transform : Img → Img
  key_transform : Img → Img

/-- `self.paths` as set by `BrainBase.__init__`: the MRI paths for
`data_type == 'mri'`, the PET paths for `'pet'`. -/
def BrainMoCo.paths {P Img : Type} (d : BrainMoCo P Img) : List P :=
  match d.data_type with
  | DataType.mri => d.mri
  | DataType.pet => d.pet

/-- The dict returned by `BrainMoCo.__getitem__`:
`dict(x1=x1, x2=x2, y=y, idx=idx)`. -/
structure MoCoItem (Img : Type) where
  x1 : Img
  x2 : Img
  y : ℤ
  idx : ℕ

/-- `BrainMoCo.__getitem__` (src/datasets/brain.py, lines 153-159): load the
volume at `paths[idx]` (`load_image` abstracts the pickle file read), apply
the query transform and the key transform to that same loaded volume, and
return both views with the sample's label and the index. -/
def BrainMoCo.getItem {P Img : Type} [Inhabited P] (d : BrainMoCo P Img)
    (load_image : P → Img) (idx : ℕ) : MoCoItem Img :=
  MoCoItem.mk (d.query_transform (load_image (d.paths.getD idx default)))
    (d.key_transform (load_image (d.paths.getD idx default)))
    (d.y.getD idx 0) idx

/-- C9: for every index of a MoCo training dataset, the returned item holds
exactly two views — the query transform and the key transform applied to the
same loaded volume — together with the sample's label and the original
index.  No condition on the label: labeled (`0`/`1`) and unlabeled (`-1`)
samples are handled identically. -/
theorem BrainMoCo_getItem_two_views_of_same_volume {P Img : Type} [Inhabited P]
    (d : BrainMoCo P Img) (load_image : P → Img) (idx : ℕ)
    (hidx : idx < d.y.length) :
    ∃ img, img = load_image (d.paths.getD idx default) ∧
      (d.getItem load_image idx).x1 = d.query_transform img ∧
      (d.getItem load_image idx).x2 = d.key_transform img ∧
      (d.getItem load_image idx).y = d.y.getD idx 0 ∧
      (d.getItem load_image idx).idx = idx :=
  ⟨load_image (d.paths.getD idx default), rfl, rfl, rfl, rfl, rfl⟩

/-- One row of the `data_info` table of `BrainProcessor`: the subject
identifier `RID` (read as a string) and the conversion label `Conv`
(`0`/`1`, or `-1` for unlabeled).  The remaining columns (file flags,
MCI status, file names, demographics) play no role in the split logic
modelled here. -/
structure InfoRow where
  RID : String
  Conv : ℤ

/-- The dict of datasets returned by `BrainProcessor.process`
(`{'train': ..., 'test': ..., 'u_train': ...}`), kept at the info-table
stage: `parse_data` only turns rows into file paths and labels and drops no
row, so subject membership of each split is decided here. -/
structure SplitDatasets where
  train : List InfoRow
  test : List InfoRow
  u_train : List InfoRow

namespace BrainProcessor

/-- The unlabeled table selected in `BrainProcessor.__init__` (line 37):
rows with `Conv` in `[-1]`. -/
def uDataInfo (rows : List InfoRow) : List InfoRow :=
  rows.filter fun r => decide (r.Conv = -1)

/-- The labeled table selected in `BrainProcessor.__init__` (line 38):
rows with `Conv` in `[0, 1]`. -/
def labeledDataInfo (rows : List InfoRow) : List InfoRow :=
  rows.filter fun r => decide (r.Conv = 0 ∨ r.Conv = 1)

/-- `BrainProcessor.process` (src/datasets/brain.py, lines 44-81).  The
`StratifiedGroupKFold` split is external (sklearn), so the selected fold's
train and test index lists are taken as parameters; `iloc` is row selection
by index.  `test_rid = list(set(test_info.RID))` is the deduplicated list of
test subject identifiers, and the unlabeled table is filtered by
`~self.u_data_info.RID.isin(test_rid)` before becoming the `'u_train'`
split. -/
def process (data_info u_data_info : List InfoRow)
    (train_idx test_idx : List ℕ) : SplitDatasets :=
  let train_info : List InfoRow := train_idx.filterMap fun i => data_info[i]?
  let test_info : List InfoRow := test_idx.filterMap fun i => data_info[i]?
  let test_rid : List String := (test_info.map fun r => r.RID).dedup
  let u_train_info : List InfoRow :=
    u_data_info.filter fun r => decide (¬ r.RID ∈ test_rid)
  SplitDatasets.mk train_info test_info u_train_info

/-- C10: the unlabeled training split produced by `BrainProcessor.process`
contains no subject whose RID occurs in the test split — unlabeled
pretraining data never leaks test subjects. -/
theorem process_u_train_test_rid_disjoint (data_info u_data_info : List InfoRow)
    (train_idx test_idx : List ℕ) (r t : InfoRow)
    (hr : r ∈ (process data_info u_data_info train_idx test_idx).u_train)
    (ht : t ∈ (process data_info u_data_info train_idx test_idx).test) :
    r.RID ≠ t.RID := by
  simp only [process] at hr ht
  rw [List.mem_filter] at hr
  have hnot := hr.2
  rw [decide_eq_true_eq] at hnot
  intro heq
  apply hnot
  exact List.mem_dedup.mpr (heq ▸ List.mem_map_of_mem (fun r2 => r2.RID) ht)

end BrainProcessor

end Sttr

namespace Sttr

/-! ### Witnesses: the theorems above applied at concrete inputs -/

/-- Witness for C1 at a concrete instance: one query row, three memory
entries, `k = 2`. -/
theorem predict_first_col_eq_specArgmax_witness :
    (KNNEvaluator.predict ⟨[2], 2, 1⟩ (fun _ => (1 : ℚ)) 2 [[1, 0]]
        [[1, 0], [0, 1], [1, 1]] [0, 1, 0]).map
        (fun res => (res.getD 0 []).getD 0 0)
      = some (specArgmax (KNNEvaluator.specClassVotes ⟨[2], 2, 1⟩ (fun _ => (1 : ℚ)) 2
          ([[(1 : ℚ), 0]].getD 0 []) [[1, 0], [0, 1], [1, 1]] [0, 1, 0])) :=
  KNNEvaluator.predict_first_col_eq_specArgmax ⟨[2], 2, 1⟩ (fun _ => (1 : ℚ)) 2
    [[1, 0]] [[1, 0], [0, 1], [1, 1]] [0, 1, 0] 0
    (by decide) (by decide) (by decide) (by decide) (by decide)

/-- Witness for the amended C2 at a concrete instance: `M = 2 < k = 3`. -/
theorem predict_k_gt_M_fails_witness :
    KNNEvaluator.predict ⟨[3], 2, (1 : ℚ)⟩ (fun _ => 1) 3 [[1, 0]] [[1, 0], [0, 1]] [0, 1]
      = none :=
  KNNEvaluator.predict_k_gt_M_fails ⟨[3], 2, (1 : ℚ)⟩ (fun _ => 1) 3 [[1, 0]]
    [[1, 0], [0, 1]] [0, 1] (by decide) (by decide)

/-- Witness for C3 at a concrete instance: two memory entries at equal
distance from the query carrying the two different labels tie, and the
predicted class is `0`. -/
theorem predict_tie_broken_by_lowest_index_witness :
    ∃ p, (KNNEvaluator.predict ⟨[2], 2, 1⟩ (fun _ => (1 : ℚ)) 2 [[1, 0]]
        [[1, 0], [0, 1]] [0, 1]).map (fun res => (res.getD 0 []).getD 0 0) = some p ∧
      (KNNEvaluator.specClassVotes ⟨[2], 2, 1⟩ (fun _ => (1 : ℚ)) 2
          ([[(1 : ℚ), 0]].getD 0 []) [[1, 0], [0, 1]] [0, 1]).getD p 0
        = (KNNEvaluator.specClassVotes ⟨[2], 2, 1⟩ (fun _ => (1 : ℚ)) 2
            ([[(1 : ℚ), 0]].getD 0 []) [[1, 0], [0, 1]] [0, 1]).getD 0 0 ∧
      ∀ c, c < 2 →
        (KNNEvaluator.specClassVotes ⟨[2], 2, 1⟩ (fun _ => (1 : ℚ)) 2
            ([[(1 : ℚ), 0]].getD 0 []) [[1, 0], [0, 1]] [0, 1]).getD c 0
          = (KNNEvaluator.specClassVotes ⟨[2], 2, 1⟩ (fun _ => (1 : ℚ)) 2
              ([[(1 : ℚ), 0]].getD 0 []) [[1, 0], [0, 1]] [0, 1]).getD 0 0 → p ≤ c := by
  have hv : KNNEvaluator.specClassVotes ⟨[2], 2, 1⟩ (fun _ => (1 : ℚ)) 2
      [(1 : ℚ), 0] [[1, 0], [0, 1]] [0, 1] = [1, 1] := by
    norm_num [KNNEvaluator.specClassVotes, argsortDesc, rankRel, dot, List.range_succ,
      List.filter_cons]
  refine KNNEvaluator.predict_tie_broken_by_lowest_index ⟨[2], 2, 1⟩ (fun _ => (1 : ℚ)) 2
    [[1, 0]] [[1, 0], [0, 1]] [0, 1] 0 0 1
    (by decide) (by decide) (by decide) (by decide) (by decide) (by decide) (by decide)
    ?_ ?_
  · intro c hc
    have hc2 : c < 2 := hc
    simp only [List.getD_cons_zero]
    rw [hv]
    have hc01 : c = 0 ∨ c = 1 := by omega
    rcases hc01 with rfl | rfl <;> norm_num
  · simp only [List.getD_cons_zero]
    rw [hv]
    rfl

/-- Witness for C4 at a concrete instance: a two-sample memory set, one query
sample, `k = 1`. -/
theorem evaluate_scores_eq_accuracy_witness :
    KNNEvaluator.evaluate (⟨[1], 2, 1⟩ : KNNEvaluator ℚ) (fun _ => 1)
        (fun s : List ℚ => s) (fun z => z)
        [⟨[[1, 0], [0, 1]], [0, 1]⟩] [⟨[[1, 0]], [0]⟩]
      = some (([1] : List ℕ).map fun k =>
          (k, ((([⟨[[1, 0]], [0]⟩] : List (Batch (List ℚ))).flatMap
                (fun b => b.x.zip b.y)).countP (fun p =>
              decide (KNNEvaluator.predictOne (⟨[1], 2, 1⟩ : KNNEvaluator ℚ) (fun _ => 1) k
                (KNNEvaluator.memoryBank (fun s : List ℚ => s) (fun z => z)
                  [⟨[[1, 0], [0, 1]], [0, 1]⟩])
                (KNNEvaluator.memoryLabels [⟨[[1, 0], [0, 1]], [0, 1]⟩])
                ((fun z => z) ((fun s : List ℚ => s) p.1)) = some p.2)) : ℚ)
            / ((([⟨[[1, 0]], [0]⟩] : List (Batch (List ℚ))).map
                fun b => b.x.length).sum : ℚ))) :=
  KNNEvaluator.evaluate_scores_eq_accuracy ⟨[1], 2, 1⟩ (fun _ => 1)
    (fun s : List ℚ => s) (fun z => z) [⟨[[1, 0], [0, 1]], [0, 1]⟩] [⟨[[1, 0]], [0]⟩]
    (by decide) (by decide) (by decide) (by decide)

/-- Witness for the amended C5 at a concrete instance: a network returning
the embedding `[3, 4]` of norm `5 ≥ 1e-12`; every bank column and query
embedding then has unit norm. -/
theorem evaluate_embeddings_unit_norm_witness :
    (∀ col ∈ KNNEvaluator.memoryBank (fun _ : Unit => [(3 : ℝ), 4])
        (Fnormalize normalizeEps) [⟨[()], [0]⟩], l2norm col = 1) ∧
      ∀ b ∈ ([⟨[()], [0]⟩] : List (Batch Unit)),
        ∀ z ∈ KNNEvaluator.batchEmbeddings (fun _ : Unit => [(3 : ℝ), 4])
          (Fnormalize normalizeEps) b, l2norm z = 1 := by
  have h34 : ∀ b ∈ ([⟨[()], [0]⟩] : List (Batch Unit)), ∀ s ∈ b.x,
      normalizeEps ≤ l2norm ((fun _ : Unit => [(3 : ℝ), 4]) s) := by
    intro b _ s _
    have h5 : l2norm [(3 : ℝ), 4] = 5 := by
      rw [l2norm]
      norm_num
      rw [show (25 : ℝ) = 5 * 5 by norm_num, Real.sqrt_mul_self (by norm_num)]
    rw [h5, normalizeEps]
    norm_num
  exact evaluate_embeddings_unit_norm (fun _ : Unit => [(3 : ℝ), 4])
    [⟨[()], [0]⟩] [⟨[()], [0]⟩] h34 h34

/-- Witness for C6 at a concrete instance. -/
theorem evaluate_deterministic_witness :
    KNNEvaluator.evaluate (⟨[1], 2, 1⟩ : KNNEvaluator ℚ) (fun _ => 1)
        (fun s : List ℚ => s) (fun z => z) [⟨[[1, 0]], [0]⟩] [⟨[[1, 0]], [0]⟩]
      = KNNEvaluator.evaluate (⟨[1], 2, 1⟩ : KNNEvaluator ℚ) (fun _ => 1)
          (fun s : List ℚ => s) (fun z => z) [⟨[[1, 0]], [0]⟩] [⟨[[1, 0]], [0]⟩] :=
  KNNEvaluator.evaluate_deterministic ⟨[1], 2, 1⟩ (fun _ => 1) (fun s : List ℚ => s)
    (fun z => z) [⟨[[1, 0]], [0]⟩] [⟨[[1, 0]], [0]⟩] _ _ rfl rfl

/-- Witness for C7 at a concrete instance: the four axis unit vectors with
labels `[0, 0, 1, 1]` and the unit query `(3/5, 4/5)`, whose three nearest
entries are `(0,1)` (label 0), `(1,0)` (label 0), `(-1,0)` (label 1); the
weight function is the positive monotone constant `1` and `T = 1/10`. -/
theorem predict_scenario_two_nearest_label0_witness :
    (KNNEvaluator.predict ⟨[3], 2, 1 / 10⟩ (fun _ => (1 : ℚ)) 3 [[3 / 5, 4 / 5]]
        [[1, 0], [0, 1], [-1, 0], [0, -1]] [0, 0, 1, 1]).map
        (fun res => (res.getD 0 []).getD 0 0) = some 0 :=
  KNNEvaluator.predict_scenario_two_nearest_label0 ⟨[3], 2, 1 / 10⟩ (fun _ => (1 : ℚ))
    [3 / 5, 4 / 5] [1, 0] [0, 1] [-1, 0] [0, -1] [0, 0, 1, 1]
    rfl (by norm_num) monotone_const (fun _ => one_pos)
    (by norm_num) (by norm_num [sumSq]) (by decide)
    (by norm_num [argsortDesc, rankRel, dot, List.range_succ])
    (by norm_num [argsortDesc, rankRel, dot, List.range_succ])
    (by norm_num [argsortDesc, rankRel, dot, List.range_succ])

/-- Witness for C9 at a concrete instance. -/
theorem BrainMoCo_getItem_two_views_witness :
    ∃ img, img = (fun p : ℕ => p + 10)
        ((BrainMoCo.mk [7] [8] [-1] DataType.mri (fun x => x + 1) (fun x => x + 2)).paths.getD
          0 default) ∧
      ((BrainMoCo.mk [7] [8] [-1] DataType.mri (fun x => x + 1)
          (fun x => x + 2)).getItem (fun p => p + 10) 0).x1 = img + 1 ∧
      ((BrainMoCo.mk [7] [8] [-1] DataType.mri (fun x => x + 1)
          (fun x => x + 2)).getItem (fun p => p + 10) 0).x2 = img + 2 ∧
      ((BrainMoCo.mk [7] [8] [-1] DataType.mri (fun x => x + 1)
          (fun x => x + 2)).getItem (fun p => p + 10) 0).y
        = ([(-1 : ℤ)]).getD 0 0 ∧
      ((BrainMoCo.mk [7] [8] [-1] DataType.mri (fun x => x + 1)
          (fun x => x + 2)).getItem (fun p => p + 10) 0).idx = 0 :=
  BrainMoCo_getItem_two_views_of_same_volume
    (BrainMoCo.mk [7] [8] [-1] DataType.mri (fun x => x + 1) (fun x => x + 2))
    (fun p => p + 10) 0 (by decide)

/-- Witness for C10 at a concrete instance: unlabeled subject `"a"` survives
the filter against the test subject `"b"`, and their RIDs differ. -/
theorem process_u_train_test_rid_disjoint_witness :
    (⟨"a", -1⟩ : InfoRow).RID ≠ (⟨"b", 0⟩ : InfoRow).RID :=
  BrainProcessor.process_u_train_test_rid_disjoint [⟨"b", 0⟩] [⟨"a", -1⟩] [] [0]
    ⟨"a", -1⟩ ⟨"b", 0⟩ (by simp [BrainProcessor.process])
    (by simp [BrainProcessor.process])

end Sttr
